import Mathlib

/-!
# Verification of the Obsidian tagger pipeline (`src/main.py`)

This file embeds the tagger program in Lean 4:

* text is modelled as `List Char` (Python `str`);
* the YAML frontmatter codec (`yaml.safe_load` / `yaml.dump` as used by the
  program) is modelled on the subset of YAML the program actually exchanges:
  an unindented block mapping from plain one-word keys to plain one-word
  scalars, `null`, flow lists, or unindented block lists of plain scalars.
  Inputs outside this subset (quoted or multi-word scalars, numbers,
  booleans, nested structures, indentation changes, comments, scalars
  containing `:`/`#`, line wrapping of overlong lines) make the model
  loader return `none`; the claims below are settled inside the subset;
* Python's `json.loads` is modelled by an executable recursive-descent
  JSON parser (`jsonLoads`);
* the Anthropic API response is modelled as a list of content blocks, and
  the network call is a parameter: the functions receive the response the
  service would have returned;
* Python exceptions are modelled with `Option`/`Except`: `none`/`.error`
  means the corresponding Python code raised.
-/

set_option autoImplicit false

/-- Characters of a string literal, used to write `List Char` constants. -/
def lc (s : String) : List Char := s.data

/-! ## Basic text utilities -/

/-- Does the text start with the three-character delimiter `---`?
Models Python `content.startswith('---')` and `'---'` prefix tests. -/
def tripleAt : List Char → Bool
  | a :: b :: c :: _ => a = '-' && b = '-' && c = '-'
  | _ => false

/-- First index at which the substring `---` occurs, if any.
Models Python `content.index('---')` (substring search, `none` = `ValueError`). -/
def findDashes : List Char → Option Nat
  | [] => none
  | c :: rest => if tripleAt (c :: rest) then some 0 else (findDashes rest).map (· + 1)

/-- Split a text into lines at `'\n'` (Python `str.splitlines`-like; a final
newline yields a trailing empty line, which the YAML loader ignores). -/
def splitLines : List Char → List (List Char)
  | [] => [[]]
  | c :: rest =>
    match splitLines rest with
    | [] => [[]]
    | l :: ls => if c = '\n' then [] :: l :: ls else (c :: l) :: ls

/-- Drop leading spaces. -/
def dropSp (l : List Char) : List Char := l.dropWhile (· = ' ')

/-- Strip leading and trailing spaces (Python `str.strip()` on the space-only
subset used by the modelled YAML documents). -/
def stripSp (l : List Char) : List Char := ((dropSp l.reverse).reverse).dropWhile (· = ' ')

/-- A line consisting only of spaces (ignored by the YAML block parser). -/
def isBlank (l : List Char) : Bool := l.all (· = ' ')

/-! ## YAML values and dictionaries

Python `dict` semantics: insertion-ordered; assigning to an existing key
replaces the value in place, a fresh key is appended at the end. -/

/-- A YAML value of the subset the program exchanges: a plain string scalar,
a list of plain string scalars, or null. -/
inductive YVal where
  | vstr (s : List Char)
  | vlist (l : List (List Char))
  | vnull
  deriving DecidableEq, Repr

/-- An insertion-ordered string-keyed dictionary (Python `dict`). -/
abbrev YDict := List (List Char × YVal)

/-- First binding of a key, if present (Python `d[k]` / `k in d`). -/
def dictGet? : YDict → List Char → Option YVal
  | [], _ => none
  | (k', v') :: rest, k => if k' = k then some v' else dictGet? rest k

/-- Python `d.get(k, dflt)`. -/
def dictGetD (d : YDict) (k : List Char) (dflt : YVal) : YVal := (dictGet? d k).getD dflt

/-- Python `d[k] = v`: replace in place if the key exists, else append. -/
def dictInsert : YDict → List Char → YVal → YDict
  | [], k, v => [(k, v)]
  | (k', v') :: rest, k, v =>
    if k' = k then (k', v) :: rest else (k', v') :: dictInsert rest k v

/-! ## The modelled plain-scalar subset -/

/-- Characters allowed in a modelled plain YAML scalar: letters, digits and
`- _ . /`.  Excludes whitespace and every character YAML gives syntactic
meaning to, so the scalar round-trips through `yaml.dump` unquoted and
unwrapped. -/
def plainChar (c : Char) : Bool :=
  c.isAlphanum || c = '-' || c = '_' || c = '.' || c = '/'

/-- Scalar spellings PyYAML resolves to `None`. -/
def nullWords : List (List Char) := [lc "null", lc "Null", lc "NULL", lc "~"]

/-- Scalar spellings PyYAML resolves to booleans (YAML 1.1), excluded from
the modelled string-scalar subset. -/
def boolWords : List (List Char) :=
  [lc "true", lc "True", lc "TRUE", lc "false", lc "False", lc "FALSE",
   lc "yes", lc "Yes", lc "YES", lc "no", lc "No", lc "NO",
   lc "on", lc "On", lc "ON", lc "off", lc "Off", lc "OFF"]

/-- A modelled plain string scalar: nonempty, made of `plainChar`s, starting
with a letter (so PyYAML resolves it as a string, not a number or date),
not a null/boolean spelling, and not containing `---` (so it cannot be
mistaken for a frontmatter delimiter when re-serialized). -/
def plainWord (s : List Char) : Bool :=
  !s.isEmpty && s.all plainChar &&
    (match s with
     | c :: _ => c.isAlpha
     | [] => false) &&
    !nullWords.contains s && !boolWords.contains s && (findDashes s).isNone

/-! ## YAML loading (`yaml.safe_load` on the modelled subset) -/

/-- Split a line at the first `": "` (colon-space), the key/value separator
of an unindented block-mapping line. -/
def splitColonSp : List Char → Option (List Char × List Char)
  | [] => none
  | [_] => none
  | c :: d :: rest =>
    if c = ':' && d = ' ' then some ([], rest)
    else (splitColonSp (d :: rest)).map (fun p => (c :: p.1, p.2))

/-- Split on commas (for flow-list contents). -/
def splitCommas : List Char → List (List Char)
  | [] => [[]]
  | c :: rest =>
    match splitCommas rest with
    | [] => [[]]
    | l :: ls => if c = ',' then [] :: l :: ls else (c :: l) :: ls

/-- The apostrophe character (written via its code point). -/
def apoChar : Char := Char.ofNat 39

/-- Strip a single-quoted flow scalar down to its contents. -/
def unquote (e : List Char) : Option (List Char) :=
  match e with
  | c :: rest =>
    if c = apoChar then
      match rest.reverse with
      | c2 :: innerRev =>
        if c2 = apoChar then
          let inner := innerRev.reverse
          if inner.all (fun ch => plainChar ch || ch = ' ') then some inner else none
        else none
      | [] => none
    else none
  | [] => none

/-- One element of a flow list: a plain word or a single-quoted scalar. -/
def parseFlowElem (e : List Char) : Option (List Char) :=
  if plainWord e then some e else unquote e

/-- All elements of a flow list. -/
def parseElems : List (List Char) → Option (List (List Char))
  | [] => some []
  | e :: es =>
    match parseFlowElem (stripSp e) with
    | none => none
    | some x => (parseElems es).map (x :: ·)

/-- Parse the (stripped, nonempty) value part of a `key: value` line. -/
def parseVal (v : List Char) : Option YVal :=
  if nullWords.contains v then some .vnull
  else
    match v with
    | [] => none
    | c :: rest =>
      if c = '[' then
        match rest.reverse with
        | ']' :: innerRev =>
          let inner := innerRev.reverse
          if (stripSp inner).isEmpty then some (.vlist [])
          else (parseElems (splitCommas inner)).map .vlist
        | _ => none
      else if plainWord (c :: rest) then some (.vstr (c :: rest)) else none

/-- Shape of one line of a block mapping. -/
inductive LineKind where
  | blank
  | item (x : List Char)
  | keyVal (k : List Char) (v : YVal)
  | keyOpen (k : List Char)
  | bad

/-- Classify a line of the frontmatter region. -/
def classifyLine (l0 : List Char) : LineKind :=
  match stripSp l0 with
  | [] => .blank
  | c :: rest =>
    if c = '-' then
      match rest with
      | ' ' :: rest2 =>
        let x := stripSp rest2
        if plainWord x then .item x else .bad
      | _ => .bad
    else
      match splitColonSp (c :: rest) with
      | some (k0, v0) =>
        let k := stripSp k0
        let v := stripSp v0
        if plainWord k then
          if v.isEmpty then .keyOpen k
          else
            match parseVal v with
            | some yv => .keyVal k yv
            | none => .bad
        else .bad
      | none =>
        match (c :: rest).reverse with
        | ':' :: kRev =>
          let k := stripSp kRev.reverse
          if plainWord k then .keyOpen k else .bad
        | _ => .bad

/-- Close a pending `key:` whose block-list items have been collected:
no items means the value is null, otherwise it is the item list. -/
def flushPend : Option (List Char × List (List Char)) → YDict → YDict
  | none, acc => acc
  | some (k, []), acc => dictInsert acc k .vnull
  | some (k, x :: xs), acc => dictInsert acc k (.vlist (x :: xs))

/-- Interpret the lines of the frontmatter region as a block mapping.
`pend` carries a `key:` whose block-list items are still being collected. -/
def loadLines : List (List Char) → Option (List Char × List (List Char)) → YDict → Option YDict
  | [], pend, acc => some (flushPend pend acc)
  | l :: ls, pend, acc =>
    match classifyLine l with
    | .blank => loadLines ls pend acc
    | .item x =>
      match pend with
      | none => none
      | some (k, xs) => loadLines ls (some (k, xs ++ [x])) acc
    | .keyVal k v => loadLines ls none (dictInsert (flushPend pend acc) k v)
    | .keyOpen k => loadLines ls (some (k, [])) (flushPend pend acc)
    | .bad => none

/-- `yaml.safe_load` on the modelled subset; `none` models a raised
`YAMLError` (or a document outside the modelled mapping subset). -/
def yamlLoad (s : List Char) : Option YDict := loadLines (splitLines s) none []

/-- One entry of `yaml.dump(..., sort_keys=False)` output. -/
def dumpVal (k : List Char) : YVal → List Char
  | .vstr s => k ++ ':' :: ' ' :: s ++ ['\n']
  | .vnull => k ++ lc ": null" ++ ['\n']
  | .vlist [] => k ++ lc ": []" ++ ['\n']
  | .vlist (x :: xs) => k ++ [':', '\n'] ++ ((x :: xs).map (fun t => '-' :: ' ' :: t ++ ['\n'])).flatten

/-- `yaml.dump(d, sort_keys=False, allow_unicode=True)` on the modelled
subset: insertion order kept, lists in block style, one entry per line. -/
def yamlDump (d : YDict) : List Char := (d.map (fun p => dumpVal p.1 p.2)).flatten

/-! ## The frontmatter codec (`parse_frontmatter` / `update_frontmatter_tags`) -/

/-- The `tags` key. -/
def tagsKey : List Char := lc "tags"

/-- `ObsidianTagger.parse_frontmatter`: empty mapping when the text does not
start with `---`; otherwise the region up to the first later occurrence of
the substring `---` is loaded as YAML, with load failures (and a null
document, via `frontmatter if frontmatter else {}`) swallowed into the
empty mapping. -/
def parse_frontmatter (content : List Char) : YDict :=
  if tripleAt content then
    match findDashes (content.drop 3) with
    | none => []
    | some i =>
      match yamlLoad ((content.drop 3).take i) with
      | none => []
      | some d => d
  else []

/-- Python `repr` of a list of strings, as interpolated by the f-string in
the no-frontmatter branch of `update_frontmatter_tags`. -/
def pyRepr (l : List (List Char)) : List Char :=
  '[' :: (List.intercalate (lc ", ") (l.map (fun s => apoChar :: s ++ [apoChar]))) ++ [']']

/-- Lexicographic comparison of strings by code point (Python `str` `<=`). -/
def leStr : List Char → List Char → Bool
  | [], _ => true
  | _ :: _, [] => false
  | a :: as, b :: bs =>
    if a.toNat < b.toNat then true
    else if b.toNat < a.toNat then false
    else leStr as bs

/-- `leStr` as a relation. -/
def leStrP (a b : List Char) : Prop := leStr a b = true

instance leStrP.instDecidableRel : DecidableRel leStrP := fun a b =>
  inferInstanceAs (Decidable (leStr a b = true))

/-- Python `sorted(set(l))`: the distinct elements in ascending code-point
order. -/
def sortedSet (l : List (List Char)) : List (List Char) :=
  List.insertionSort leStrP l.dedup

/-- `ObsidianTagger.update_frontmatter_tags`: prepend a fresh frontmatter
block when none exists; otherwise re-parse the block, overwrite its `tags`
entry with the sorted deduplicated tag list, re-serialize, and keep
everything after the close.  Any load failure returns the original content
unchanged (the `except` fallback). -/
def update_frontmatter_tags (content : List Char) (new_tags : List (List Char)) : List Char :=
  if tripleAt content then
    match findDashes (content.drop 3) with
    | none => content
    | some i =>
      match yamlLoad ((content.drop 3).take i) with
      | none => content
      | some fm =>
        let fm' := dictInsert fm tagsKey (.vlist (sortedSet new_tags))
        lc "---\n" ++ yamlDump fm' ++ lc "---\n" ++ content.drop (3 + i + 4)
  else lc "---\ntags: " ++ pyRepr new_tags ++ lc "\n---\n\n" ++ content

/-! ## The vault tag collector (`get_all_vault_tags`)

The vault is modelled as the list of per-file read results, in traversal
order: `.error` is a file whose read raised, `.ok` carries the text. -/

/-- Python `set.add`: sets are modelled as duplicate-free lists in insertion
order (theorems about them only use membership, which is order-blind). -/
def setAdd (acc : List (List Char)) (x : List Char) : List (List Char) :=
  if x ∈ acc then acc else acc ++ [x]

/-- The contribution of one file to the vault tag set: skipped on a read
error; otherwise the `tags` entry of its frontmatter, a bare string adding
one tag and a list adding each element (any other value adds nothing). -/
def tagsFromFile (acc : List (List Char)) (f : Except (List Char) (List Char)) : List (List Char) :=
  match f with
  | .error _ => acc
  | .ok content =>
    let fm := parse_frontmatter content
    match dictGet? fm tagsKey with
    | some (.vstr s) => setAdd acc s
    | some (.vlist l) => l.foldl setAdd acc
    | some .vnull => acc
    | none => acc

/-- `ObsidianTagger.get_all_vault_tags`. -/
def get_all_vault_tags (vault : List (Except (List Char) (List Char))) : List (List Char) :=
  vault.foldl tagsFromFile []

/-! ## JSON (`json.loads`) -/

/-- A JSON value. -/
inductive JVal where
  | jnull
  | jbool (b : Bool)
  | jnum (s : List Char)
  | jstr (s : List Char)
  | jarr (es : List JVal)
  | jobj (ms : List (List Char × JVal))

/-- Skip JSON whitespace. -/
def skipWs (s : List Char) : List Char :=
  s.dropWhile (fun c => c = ' ' || c = '\t' || c = '\n' || c = '\r')

/-- Value of a hexadecimal digit. -/
def hexVal (c : Char) : Option Nat :=
  if c.isDigit then some (c.toNat - 48)
  else if 'a' ≤ c && c ≤ 'f' then some (c.toNat - 87)
  else if 'A' ≤ c && c ≤ 'F' then some (c.toNat - 55)
  else none

/-- Parse the remainder of a JSON string (after the opening quote),
returning its contents and the rest of the input.  Raw control characters
are rejected, as in Python's strict `json.loads`. -/
def pStr : List Char → Option (List Char × List Char)
  | [] => none
  | '"' :: rest => some ([], rest)
  | '\\' :: e :: rest =>
    (match e with
     | '"' => (pStr rest).map (fun p => ('"' :: p.1, p.2))
     | '\\' => (pStr rest).map (fun p => ('\\' :: p.1, p.2))
     | '/' => (pStr rest).map (fun p => ('/' :: p.1, p.2))
     | 'b' => (pStr rest).map (fun p => (Char.ofNat 8 :: p.1, p.2))
     | 'f' => (pStr rest).map (fun p => (Char.ofNat 12 :: p.1, p.2))
     | 'n' => (pStr rest).map (fun p => ('\n' :: p.1, p.2))
     | 'r' => (pStr rest).map (fun p => ('\r' :: p.1, p.2))
     | 't' => (pStr rest).map (fun p => ('\t' :: p.1, p.2))
     | 'u' =>
       match rest with
       | h1 :: h2 :: h3 :: h4 :: rest2 =>
         match hexVal h1, hexVal h2, hexVal h3, hexVal h4 with
         | some a, some b, some c, some d =>
           (pStr rest2).map (fun p => (Char.ofNat (((a * 16 + b) * 16 + c) * 16 + d) :: p.1, p.2))
         | _, _, _, _ => none
       | _ => none
     | _ => none)
  | c :: rest =>
    if c.toNat < 32 then none
    else (pStr rest).map (fun p => (c :: p.1, p.2))

/-- Lex the integer part of a JSON number (no leading zeros). -/
def lexInt : List Char → Option (List Char × List Char)
  | [] => none
  | '0' :: rest => some (['0'], rest)
  | c :: rest =>
    if c.isDigit then
      match rest.span (fun d => d.isDigit) with
      | (ds, r) => some (c :: ds, r)
    else none

/-- Lex an optional fraction part. -/
def lexFrac : List Char → Option (List Char × List Char)
  | '.' :: r =>
    (match r.span (fun d => d.isDigit) with
     | ([], _) => none
     | (ds, rest) => some ('.' :: ds, rest))
  | s => some ([], s)

/-- Lex an optional exponent part. -/
def lexExp : List Char → Option (List Char × List Char)
  | [] => some ([], [])
  | c :: r =>
    if c = 'e' || c = 'E' then
      let p := match r with
               | s :: r2 => if s = '+' || s = '-' then ([s], r2) else (([] : List Char), r)
               | [] => ([], [])
      match p.2.span (fun d => d.isDigit) with
      | ([], _) => none
      | (ds, rest) => some (c :: p.1 ++ ds, rest)
    else some ([], c :: r)

/-- Lex a complete JSON number (the caller checked the first character). -/
def lexNum (s : List Char) : Option (List Char × List Char) :=
  let q := match s with
           | '-' :: r => (['-'], r)
           | _ => (([] : List Char), s)
  match lexInt q.2 with
  | none => none
  | some (ip, s2) =>
    match lexFrac s2 with
    | none => none
    | some (fp, s3) =>
      match lexExp s3 with
      | none => none
      | some (ep, s4) => some (q.1 ++ ip ++ fp ++ ep, s4)

/-- Parser mode: a single value, array contents, or object contents. -/
inductive PMode where
  | one
  | arr
  | arrCont
  | obj
  | objCont

/-- Parser intermediate result. -/
inductive PRes where
  | val (v : JVal)
  | items (es : List JVal)
  | fields (ms : List (List Char × JVal))

/-- Fuel-indexed recursive-descent JSON parser. -/
def pStep : Nat → PMode → List Char → Option (PRes × List Char)
  | 0, _, _ => none
  | Nat.succ f, PMode.one, s =>
    (match skipWs s with
     | '{' :: r =>
       match pStep f .obj r with
       | some (.fields ms, rest) => some (.val (.jobj ms), rest)
       | _ => none
     | '[' :: r =>
       match pStep f .arr r with
       | some (.items es, rest) => some (.val (.jarr es), rest)
       | _ => none
     | '"' :: r => (pStr r).map (fun p => (.val (.jstr p.1), p.2))
     | 't' :: 'r' :: 'u' :: 'e' :: r => some (.val (.jbool true), r)
     | 'f' :: 'a' :: 'l' :: 's' :: 'e' :: r => some (.val (.jbool false), r)
     | 'n' :: 'u' :: 'l' :: 'l' :: r => some (.val .jnull, r)
     | c :: r =>
       if c = '-' || c.isDigit then (lexNum (c :: r)).map (fun p => (.val (.jnum p.1), p.2))
       else none
     | [] => none)
  | Nat.succ f, PMode.arr, s =>
    (match skipWs s with
     | ']' :: r => some (.items [], r)
     | _ => pStep f .arrCont s)
  | Nat.succ f, PMode.arrCont, s =>
    (match pStep f .one s with
     | some (.val v, r1) =>
       (match skipWs r1 with
        | ',' :: r2 =>
          match pStep f .arrCont r2 with
          | some (.items es, rest) => some (.items (v :: es), rest)
          | _ => none
        | ']' :: r2 => some (.items [v], r2)
        | _ => none)
     | _ => none)
  | Nat.succ f, PMode.obj, s =>
    (match skipWs s with
     | '}' :: r => some (.fields [], r)
     | _ => pStep f .objCont s)
  | Nat.succ f, PMode.objCont, s =>
    (match skipWs s with
     | '"' :: r =>
       match pStr r with
       | none => none
       | some (k, r1) =>
         match skipWs r1 with
         | ':' :: r2 =>
           (match pStep f .one r2 with
            | some (.val v, r3) =>
              (match skipWs r3 with
               | ',' :: r4 =>
                 match pStep f .objCont r4 with
                 | some (.fields ms, rest) => some (.fields ((k, v) :: ms), rest)
                 | _ => none
               | '}' :: r4 => some (.fields [(k, v)], r4)
               | _ => none)
            | _ => none)
         | _ => none
     | _ => none)

/-- `json.loads`: parse one value and require only whitespace after it
(`none` models a raised `JSONDecodeError`). -/
def jsonLoads (s : List Char) : Option JVal :=
  match pStep (3 * s.length + 9) .one s with
  | some (.val v, rest) => if (skipWs rest).isEmpty then some v else none
  | _ => none

/-- `isinstance(x, list) and all(isinstance(tag, str) for tag in x)`,
returning the strings. -/
def allStrings : List JVal → Option (List (List Char))
  | [] => some []
  | .jstr s :: rest => (allStrings rest).map (s :: ·)
  | _ => none

/-! ## The suggestion client (`create_tag_generation_prompt` / `suggest_tags`)

The network call is opaque: the functions receive the response the service
returned.  A response is a list of content blocks; only text blocks carry
usable data.  In Python, `current_tags` is dynamically typed and can be
`None` when the frontmatter holds `tags:` with a null value (the
`.get('tags', [])` default only fires when the key is absent); that `None`
is modelled by `Option`, and joining it raises `TypeError` inside the
f-string of `create_tag_generation_prompt`, before the network call. -/

/-- One block of the API response body. -/
inductive ContentBlock where
  | text (t : List Char)
  | other
  deriving DecidableEq

/-- `", ".join(l)`. -/
def joinCommaSp (l : List (List Char)) : List Char := List.intercalate (lc ", ") l

/-- The `TypeError` raised by `", ".join(None)`. -/
def typeErrorJoin : List Char := lc "TypeError: can only join an iterable"

/-- `ObsidianTagger.create_tag_generation_prompt`: the deterministic prompt
template.  Raises (returns `.error`) when `current_tags` is `None`. -/
def create_tag_generation_prompt (title contents : List Char)
    (current? : Option (List (List Char))) (vault : List (List Char)) :
    Except (List Char) (List Char) :=
  match current? with
  | none => .error typeErrorJoin
  | some current =>
    .ok (lc "You are a helpful assistant that suggests relevant tags for Obsidian markdown notes.\n" ++
      lc "- Given the following note contents and existing tags, suggest additional relevant tags.\n" ++
      lc "- Only suggest tags that would be genuinely useful for organization and retrieval, and are directly relevant to the note, not just tentatively related.\n" ++
      lc "- Only suggest the \"papers\" tag if the note is a clipping of the arxiv link itself, not just if it" ++ [apoChar] ++
      lc "s a note containing the arxiv link. A good heuristic is whether the note" ++ [apoChar] ++
      lc "s title is the paper title.\n\nExisting tags in vault: " ++ joinCommaSp (sortedSet vault) ++
      lc "\nCurrent note tags: " ++ joinCommaSp current ++
      lc "\n\nNote contents:\n\n<title>\n" ++ title ++
      lc "\n</title>\n\n<note>\n" ++ contents ++
      lc "\n</note>\n\nReply with only a JSON array of suggested new tags. Include both completely new tags and relevant existing vault tags that aren" ++ [apoChar] ++
      lc "t currently applied to this note.\nExample response format: [\"tag1\", \"tag2\", \"tag3\"]")

/-- `ObsidianTagger.suggest_tags`: build the prompt (which raises when
`current_tags` is `None`), then validate the response: exactly one block,
of text type, whose text is a JSON array with every element a string.
Every deviation raises (`.error`). -/
def suggest_tags (title contents : List Char) (current? : Option (List (List Char)))
    (vault : List (List Char)) (resp : List ContentBlock) :
    Except (List Char) (List (List Char)) :=
  match create_tag_generation_prompt title contents current? vault with
  | .error e => .error e
  | .ok _prompt =>
    match resp with
    | [b] =>
      (match b with
       | .text t =>
         (match jsonLoads t with
          | none => .error (lc "json.decoder.JSONDecodeError")
          | some j =>
            match j with
            | .jarr es =>
              (match allStrings es with
               | some tags => .ok tags
               | none => .error (lc "Invalid response format from API"))
            | _ => .error (lc "Invalid response format from API"))
       | .other => .error (lc "Expected text response from API"))
    | _ => .error (lc "Expected exactly one response from API")

/-! ## The orchestrator (`add_tags`) -/

/-- Normalize the dynamically typed `current_tags` after the
`isinstance(current_tags, str)` wrap: a bare string becomes a one-element
list, a list stays, and a null value stays `None` (modelled `none`). -/
def normCurrent : YVal → Option (List (List Char))
  | .vstr s => some [s]
  | .vlist l => some l
  | .vnull => none

/-- What a successful `add_tags` run writes and reports. -/
structure AddOutcome where
  written : List Char
  addedTags : List (List Char)
  deriving DecidableEq, Repr

/-- The merge step of `add_tags`: `sorted(set(current_tags + new_tags))`. -/
def mergeTags (current new : List (List Char)) : List (List Char) :=
  sortedSet (current ++ new)

/-- The reported `set(new_tags) - set(current_tags)`, as a canonical sorted
duplicate-free list (Python prints a set, whose iteration order is
arbitrary; only the set of elements is meaningful). -/
def addedReport (current new : List (List Char)) : List (List Char) :=
  sortedSet (new.filter (fun t => !current.contains t))

/-- `ObsidianTagger.add_tags` after the target file has been read: parse the
frontmatter, normalize the current tags, collect the vault vocabulary, ask
for suggestions, merge, re-serialize, and report what was written and which
tags were added.  `.error` models the exception that `add_tags` prints and
re-raises; the file is written only on `.ok`. -/
def add_tags (vault : List (Except (List Char) (List Char)))
    (title contents : List Char) (resp : List ContentBlock) :
    Except (List Char) AddOutcome :=
  let fm := parse_frontmatter contents
  let current? := normCurrent (dictGetD fm tagsKey (.vlist []))
  let vaultTags := get_all_vault_tags vault
  match suggest_tags title contents current? vaultTags resp with
  | .error e => .error e
  | .ok new_tags =>
    match current? with
    | none => .error typeErrorJoin
    | some current =>
      let updated := update_frontmatter_tags contents (mergeTags current new_tags)
      .ok { written := updated, addedTags := addedReport current new_tags }

/-- A response that passes every check of `suggest_tags`: exactly one text
block whose text is a JSON array of strings.  `none` is any deviation. -/
def respParses (resp : List ContentBlock) : Option (List (List Char)) :=
  match resp with
  | [ContentBlock.text t] =>
    (match jsonLoads t with
     | some (.jarr es) => allStrings es
     | _ => none)
  | _ => none

instance instDecEqExcept {ε α : Type} [DecidableEq ε] [DecidableEq α] : DecidableEq (Except ε α)
  | .error e, .error e' =>
    if h : e = e' then .isTrue (by rw [h]) else .isFalse (by intro hc; cases hc; exact h rfl)
  | .error _, .ok _ => .isFalse (by intro hc; cases hc)
  | .ok _, .error _ => .isFalse (by intro hc; cases hc)
  | .ok a, .ok a' =>
    if h : a = a' then .isTrue (by rw [h]) else .isFalse (by intro hc; cases hc; exact h rfl)

/-! ## Claim C1: serialize never destroys the document on a parse failure

In `update_frontmatter_tags` the only fallible steps on a document that has
a frontmatter prefix are locating the closing `---` (`str.index` raises
`ValueError`) and `yaml.safe_load` (raises `YAMLError`); both are caught
and the original text is returned.  Reconstruction (`yaml.dump` on a dict
of plain strings and string lists) cannot raise, so the model makes it
total. -/

/-- C1: on any parse failure (no closing delimiter, or an unloadable
frontmatter region) `update_frontmatter_tags` returns the original document
text unchanged. -/
theorem update_frontmatter_keeps_original_on_failure
    (content : List Char) (new_tags : List (List Char))
    (hfail : findDashes (content.drop 3) = none ∨
      ∃ i, findDashes (content.drop 3) = some i ∧ yamlLoad ((content.drop 3).take i) = none) :
    tripleAt content = true → update_frontmatter_tags content new_tags = content := by
  intro hstart
  rcases hfail with h | ⟨i, h1, h2⟩
  · simp [update_frontmatter_tags, hstart, h]
  · simp [update_frontmatter_tags, hstart, h1, h2]

/-- C1 witness: a document whose frontmatter never closes survives
`update_frontmatter_tags` unchanged. -/
theorem update_frontmatter_keeps_original_on_failure_witness :
    update_frontmatter_tags (lc "---\ntags: [unclosed\nbody") [lc "a"] =
      lc "---\ntags: [unclosed\nbody" :=
  update_frontmatter_keeps_original_on_failure _ _ (Or.inl (by decide)) (by decide)

/-! ## Claim C2: the end-to-end example -/

/-- C2: on the document `---\ntags: foo\n---\nbody text`, with the service
returning `["bar","baz"]`, `add_tags` writes a document whose frontmatter
`tags` entry is the sorted list `["bar","baz","foo"]`, keeps the body
`body text` verbatim after the rebuilt block, and reports exactly
`{"bar","baz"}` as added. -/
theorem add_tags_end_to_end_example :
    add_tags [] (lc "note") (lc "---\ntags: foo\n---\nbody text")
        [.text (lc "[\"bar\", \"baz\"]")] =
      .ok { written := lc "---\ntags:\n- bar\n- baz\n- foo\n---\nbody text",
            addedTags := [lc "bar", lc "baz"] } ∧
    dictGet? (parse_frontmatter (lc "---\ntags:\n- bar\n- baz\n- foo\n---\nbody text")) tagsKey =
      some (.vlist [lc "bar", lc "baz", lc "foo"]) ∧
    lc "---\ntags:\n- bar\n- baz\n- foo\n---\nbody text" =
      lc "---\n" ++ yamlDump [(tagsKey, .vlist [lc "bar", lc "baz", lc "foo"])] ++
        lc "---\n" ++ lc "body text" := by
  refine ⟨by decide, by decide, by decide⟩

/-! ## Claim C6: `parse_frontmatter` is total and swallows failures -/

/-- C6: `parse_frontmatter` is a total function: it returns the empty
mapping when the text does not start with `---`, the empty mapping when no
second `---` exists or the enclosed region fails to load (Python raises are
swallowed by the `except` clause; a null/empty region also yields `{}` via
`frontmatter if frontmatter else {}`), and otherwise the mapping loaded
from the region between the leading `---` and the next occurrence of
`---`. -/
theorem parse_frontmatter_case_analysis (content : List Char) :
    (tripleAt content = false → parse_frontmatter content = []) ∧
    (tripleAt content = true → findDashes (content.drop 3) = none →
      parse_frontmatter content = []) ∧
    (∀ i, tripleAt content = true → findDashes (content.drop 3) = some i →
      yamlLoad ((content.drop 3).take i) = none → parse_frontmatter content = []) ∧
    (∀ i d, tripleAt content = true → findDashes (content.drop 3) = some i →
      yamlLoad ((content.drop 3).take i) = some d → parse_frontmatter content = d) := by
  refine ⟨fun h => ?_, fun h1 h2 => ?_, fun i h1 h2 h3 => ?_, fun i d h1 h2 h3 => ?_⟩
  · simp [parse_frontmatter, h]
  · simp [parse_frontmatter, h1, h2]
  · simp [parse_frontmatter, h1, h2, h3]
  · simp [parse_frontmatter, h1, h2, h3]

/-- C6 witness: the four cases at concrete documents. -/
theorem parse_frontmatter_case_analysis_witness :
    parse_frontmatter (lc "no delimiter here") = [] ∧
    parse_frontmatter (lc "---\nnever closed") = [] ∧
    parse_frontmatter (lc "---\n[ bad\n---\n") = [] ∧
    parse_frontmatter (lc "---\ntags: foo\n---\nx") = [(tagsKey, .vstr (lc "foo"))] :=
  ⟨(parse_frontmatter_case_analysis _).1 (by decide),
   (parse_frontmatter_case_analysis _).2.1 (by decide) (by decide),
   (parse_frontmatter_case_analysis _).2.2.1 7 (by decide) (by decide) (by decide),
   (parse_frontmatter_case_analysis _).2.2.2 11 _ (by decide) (by decide) (by decide)⟩

/-! ## Claim C10: a null `tags:` value aborts the run -/

/-- C10: when the parsed frontmatter holds a `tags` key with a null value,
`add_tags` raises and aborts for every service response, instead of
treating the current tags as an empty list: the `.get('tags', [])` default
fires only when the key is absent, so `None` flows into the dynamically
typed `current_tags` and joining it raises `TypeError` while the prompt is
built, before any file modification. -/
theorem add_tags_null_tags_aborts
    (vault : List (Except (List Char) (List Char))) (title contents : List Char)
    (resp : List ContentBlock)
    (hnull : dictGet? (parse_frontmatter contents) tagsKey = some .vnull) :
    (add_tags vault title contents resp).isOk = false := by
  simp [add_tags, dictGetD, hnull, normCurrent, suggest_tags,
    create_tag_generation_prompt, Except.isOk, Except.toBool]

/-- C10 witness: a concrete document with `tags:` and nothing after it
aborts even though the service response is perfectly well-formed. -/
theorem add_tags_null_tags_aborts_witness :
    (add_tags [] (lc "n") (lc "---\ntags:\n---\nbody") [.text (lc "[\"x\"]")]).isOk = false :=
  add_tags_null_tags_aborts [] (lc "n") (lc "---\ntags:\n---\nbody") _ (by decide)

/-! ## Claim C5: every deviant service response is a hard failure -/

/-- If `suggest_tags` succeeds, the response was exactly one text block
whose text parsed as a JSON array of strings, and the returned tag list is
that array — no partial acceptance. -/
theorem suggest_tags_ok_respParses
    {title contents : List Char} {current? : Option (List (List Char))}
    {vault : List (List Char)} {resp : List ContentBlock} {tags : List (List Char)}
    (h : suggest_tags title contents current? vault resp = .ok tags) :
    respParses resp = some tags := by
  cases current? with
  | none => simp [suggest_tags, create_tag_generation_prompt] at h
  | some cur =>
    match resp with
    | [] => simp [suggest_tags, create_tag_generation_prompt] at h
    | ContentBlock.other :: [] => simp [suggest_tags, create_tag_generation_prompt] at h
    | b1 :: b2 :: rest => simp [suggest_tags, create_tag_generation_prompt] at h
    | ContentBlock.text t :: [] =>
      cases hj : jsonLoads t with
      | none => simp [suggest_tags, create_tag_generation_prompt, hj] at h
      | some j =>
        cases j with
        | jarr es =>
          cases ha : allStrings es with
          | none => simp [suggest_tags, create_tag_generation_prompt, hj, ha] at h
          | some tl =>
            simp [suggest_tags, create_tag_generation_prompt, hj, ha] at h
            simp [respParses, hj, ha, h]
        | jnull => simp [suggest_tags, create_tag_generation_prompt, hj] at h
        | jbool b => simp [suggest_tags, create_tag_generation_prompt, hj] at h
        | jnum s => simp [suggest_tags, create_tag_generation_prompt, hj] at h
        | jstr s => simp [suggest_tags, create_tag_generation_prompt, hj] at h
        | jobj ms => simp [suggest_tags, create_tag_generation_prompt, hj] at h

/-- C5: any response deviating from "exactly one text block whose text is a
JSON array of strings" (wrong block count, non-text block, invalid JSON,
non-array top level, or a non-string element) makes `suggest_tags` raise —
no partial tag list is accepted — and makes `add_tags` abort with no
file modification, whatever the target document. -/
theorem deviant_response_aborts (resp : List ContentBlock)
    (hdev : respParses resp = none) :
    (∀ title contents current? vault,
      (suggest_tags title contents current? vault resp).isOk = false) ∧
    (∀ vault title contents, (add_tags vault title contents resp).isOk = false) := by
  constructor
  · intro title contents current? vault
    cases h : suggest_tags title contents current? vault resp with
    | error e => simp [h, Except.isOk, Except.toBool]
    | ok tags => rw [suggest_tags_ok_respParses h] at hdev; cases hdev
  · intro vault title contents
    unfold add_tags
    cases h : suggest_tags title contents
        (normCurrent (dictGetD (parse_frontmatter contents) tagsKey (.vlist [])))
        (get_all_vault_tags vault) resp with
    | error e => simp [h, Except.isOk, Except.toBool]
    | ok tags => rw [suggest_tags_ok_respParses h] at hdev; cases hdev

/-- C5 witness: a JSON object, an array with a numeric element, invalid
JSON, and a two-block response each abort a concrete invocation. -/
theorem deviant_response_aborts_witness :
    (add_tags [] (lc "n") (lc "---\ntags: foo\n---\nbody")
      [.text ('{' :: lc "\"a\": 1" ++ ['}'])]).isOk = false ∧
    (add_tags [] (lc "n") (lc "---\ntags: foo\n---\nbody") [.text (lc "[\"ok\", 3]")]).isOk = false ∧
    (suggest_tags (lc "n") (lc "b") (some [lc "foo"]) [] [.text (lc "not json")]).isOk = false ∧
    (suggest_tags (lc "n") (lc "b") (some [lc "foo"]) []
      [.text (lc "[\"a\"]"), .text (lc "[\"b\"]")]).isOk = false :=
  ⟨((deviant_response_aborts _ (by decide)).2 [] _ _),
   ((deviant_response_aborts _ (by decide)).2 [] _ _),
   ((deviant_response_aborts _ (by decide)).1 _ _ _ _),
   ((deviant_response_aborts _ (by decide)).1 _ _ _ _)⟩

/-! ## Claim C4: the merge step is a sorted, case-sensitive set union -/

theorem leStr_total : ∀ a b : List Char, leStrP a b ∨ leStrP b a := by
  intro a
  induction a with
  | nil => intro b; left; rfl
  | cons x xs ih =>
    intro b
    cases b with
    | nil => right; rfl
    | cons y ys =>
      rcases Nat.lt_trichotomy x.toNat y.toNat with h | h | h
      · left; simp [leStrP, leStr, h]
      · rcases ih ys with h2 | h2
        · left; simpa [leStrP, leStr, h, Nat.lt_irrefl] using h2
        · right; simpa [leStrP, leStr, h, Nat.lt_irrefl] using h2
      · right; simp [leStrP, leStr, h]

theorem leStr_trans : ∀ a b c : List Char, leStrP a b → leStrP b c → leStrP a c := by
  intro a
  induction a with
  | nil => intro b c _ _; rfl
  | cons x xs ih =>
    intro b c h1 h2
    cases b with
    | nil => exact absurd h1 (by simp [leStrP, leStr])
    | cons y ys =>
      cases c with
      | nil => exact absurd h2 (by simp [leStrP, leStr])
      | cons z zs =>
        simp only [leStrP, leStr] at h1 h2 ⊢
        rcases Nat.lt_trichotomy x.toNat y.toNat with hxy | hxy | hxy
        · rcases Nat.lt_trichotomy y.toNat z.toNat with hyz | hyz | hyz
          · simp [Nat.lt_trans hxy hyz]
          · have hxz : x.toNat < z.toNat := by omega
            simp [hxz]
          · rw [if_neg (Nat.lt_asymm hyz), if_pos hyz] at h2; cases h2
        · rcases Nat.lt_trichotomy y.toNat z.toNat with hyz | hyz | hyz
          · have hxz : x.toNat < z.toNat := by omega
            simp [hxz]
          · rw [if_neg (by omega), if_neg (by omega)] at h1
            rw [if_neg (by omega), if_neg (by omega)] at h2
            rw [if_neg (by omega : ¬ x.toNat < z.toNat), if_neg (by omega : ¬ z.toNat < x.toNat)]
            exact ih ys zs h1 h2
          · rw [if_neg (Nat.lt_asymm hyz), if_pos hyz] at h2; cases h2
        · rw [if_neg (Nat.lt_asymm hxy), if_pos hxy] at h1; cases h1

instance leStrP.instIsTotal : IsTotal (List Char) leStrP := ⟨leStr_total⟩

instance leStrP.instIsTrans : IsTrans (List Char) leStrP := ⟨leStr_trans⟩

theorem sortedSet_sorted (l : List (List Char)) : List.Sorted leStrP (sortedSet l) :=
  List.sorted_insertionSort leStrP l.dedup

theorem sortedSet_nodup (l : List (List Char)) : (sortedSet l).Nodup :=
  ((List.perm_insertionSort leStrP l.dedup).nodup_iff).mpr l.nodup_dedup

theorem sortedSet_mem (l : List (List Char)) (x : List Char) : x ∈ sortedSet l ↔ x ∈ l := by
  unfold sortedSet
  rw [(List.perm_insertionSort leStrP l.dedup).mem_iff, List.mem_dedup]

/-- C4: the merge step of `add_tags` computes exactly
`sorted(unique(current ∪ new))`: an ascending duplicate-free list whose
members are precisely the members of either input, under case-sensitive
string equality — in particular `"Paper"` and `"paper"` stay distinct. -/
theorem mergeTags_sorted_case_sensitive_union :
    (∀ current new : List (List Char),
      List.Sorted leStrP (mergeTags current new) ∧ (mergeTags current new).Nodup ∧
      (∀ x, x ∈ mergeTags current new ↔ x ∈ current ∨ x ∈ new)) ∧
    mergeTags [lc "Paper"] [lc "paper"] = [lc "Paper", lc "paper"] := by
  refine ⟨fun current new => ⟨sortedSet_sorted _, sortedSet_nodup _, fun x => ?_⟩, by decide⟩
  rw [mergeTags, sortedSet_mem, List.mem_append]

/-- C4 witness: the universally quantified part applied at concrete lists. -/
theorem mergeTags_sorted_case_sensitive_union_witness :
    (mergeTags [lc "b"] [lc "a", lc "b"]).Nodup ∧
    (lc "a" ∈ mergeTags [lc "b"] [lc "a", lc "b"]) :=
  ⟨(mergeTags_sorted_case_sensitive_union.1 _ _).2.1,
   ((mergeTags_sorted_case_sensitive_union.1 _ _).2.2 _).mpr (Or.inr (by decide))⟩

/-! ## Claim C7: the vault tag collector -/

/-- Whether tag `x` is contributed by vault file `f`: nothing from a
file whose read raised; otherwise the `tags` entry of the parsed
frontmatter, normalized string-vs-sequence (a bare string contributes
itself, a list contributes its elements, anything else nothing). -/
def fileTagMem (f : Except (List Char) (List Char)) (x : List Char) : Prop :=
  match f with
  | .error _ => False
  | .ok content =>
    match dictGet? (parse_frontmatter content) tagsKey with
    | some (.vstr s) => x = s
    | some (.vlist l) => x ∈ l
    | _ => False

theorem mem_setAdd (acc : List (List Char)) (x y : List Char) :
    y ∈ setAdd acc x ↔ y ∈ acc ∨ y = x := by
  unfold setAdd
  split
  · case isTrue h => exact ⟨Or.inl, fun h' => h'.elim id (fun he => he ▸ h)⟩
  · simp

theorem mem_foldl_setAdd (l : List (List Char)) :
    ∀ acc y, y ∈ l.foldl setAdd acc ↔ y ∈ acc ∨ y ∈ l := by
  induction l with
  | nil => simp
  | cons x xs ih =>
    intro acc y
    rw [List.foldl_cons, ih, mem_setAdd]
    simp [List.mem_cons]
    tauto

theorem mem_tagsFromFile (f : Except (List Char) (List Char))
    (acc : List (List Char)) (y : List Char) :
    y ∈ tagsFromFile acc f ↔ y ∈ acc ∨ fileTagMem f y := by
  cases f with
  | error e => simp [tagsFromFile, fileTagMem]
  | ok content =>
    unfold tagsFromFile fileTagMem
    cases h : dictGet? (parse_frontmatter content) tagsKey with
    | none => simp [h]
    | some v =>
      cases v with
      | vstr s => simp [h, mem_setAdd]
      | vlist l => simp [h, mem_foldl_setAdd]
      | vnull => simp [h]

theorem mem_foldl_tagsFromFile (vault : List (Except (List Char) (List Char))) :
    ∀ acc y, y ∈ vault.foldl tagsFromFile acc ↔ y ∈ acc ∨ ∃ f ∈ vault, fileTagMem f y := by
  induction vault with
  | nil => simp
  | cons f fs ih =>
    intro acc y
    rw [List.foldl_cons, ih, mem_tagsFromFile]
    simp [List.mem_cons, or_assoc]

/-- C7: `get_all_vault_tags` returns exactly the union over all readable
files of their normalized `tags` entries; a file whose read raised is
skipped without affecting the rest of the scan; and over three documents
with tag lists `["a","b"]`, `["b","c"]` and one without a frontmatter
block, the result is exactly `{"a","b","c"}`. -/
theorem get_all_vault_tags_union_skips_errors :
    (∀ vault x, x ∈ get_all_vault_tags vault ↔ ∃ f ∈ vault, fileTagMem f x) ∧
    (∀ v1 v2 e, get_all_vault_tags (v1 ++ .error e :: v2) = get_all_vault_tags (v1 ++ v2)) ∧
    get_all_vault_tags [.ok (lc "---\ntags:\n- a\n- b\n---\nx"),
      .ok (lc "---\ntags:\n- b\n- c\n---\ny"), .ok (lc "no block")] =
      [lc "a", lc "b", lc "c"] := by
  refine ⟨fun vault x => ?_, fun v1 v2 e => ?_, by decide⟩
  · rw [get_all_vault_tags, mem_foldl_tagsFromFile]
    simp
  · unfold get_all_vault_tags
    rw [List.foldl_append, List.foldl_append, List.foldl_cons]
    rfl

/-- C7 witness: a read error in the middle of the vault changes nothing. -/
theorem get_all_vault_tags_union_skips_errors_witness :
    get_all_vault_tags ([.ok (lc "---\ntags: a\n---\n")] ++ .error (lc "boom") ::
        [.ok (lc "---\ntags: b\n---\n")]) =
      get_all_vault_tags ([.ok (lc "---\ntags: a\n---\n")] ++ [.ok (lc "---\ntags: b\n---\n")]) :=
  get_all_vault_tags_union_skips_errors.2.1 _ _ _

/-! ## Claim C8: how the delimiters are recognized

The code finds the close with `content[3:].index('---')`, a *substring*
search: the first occurrence of `---` after position 3 closes the block,
whether or not it stands on a line of its own.  The opening test is
`content.startswith('---')`, a prefix test, not a marker-line test.  The
claim that the close is recognized "only as a marker line" is refuted
below and replaced by the substring characterization. -/

theorem tripleAt_cons3 (a b c : Char) (t : List Char) :
    tripleAt (a :: b :: c :: t) = (decide (a = '-') && decide (b = '-') && decide (c = '-')) := rfl

theorem findDashes_cons_none_iff {c : Char} {rest : List Char} :
    findDashes (c :: rest) = none ↔ tripleAt (c :: rest) = false ∧ findDashes rest = none := by
  rw [findDashes]
  split
  · case isTrue h => simp [h]
  · case isFalse h => simp [h, Option.map_eq_none']

/-- If `---` does not occur in `xs` and `xs` does not end in `'-'` (so no
occurrence can straddle the boundary), the first occurrence of `---` in
`xs ++ --- ++ ys` is exactly at position `xs.length`. -/
theorem findDashes_append_boundary : ∀ (xs ys : List Char),
    findDashes xs = none → xs.getLast? ≠ some '-' →
    findDashes (xs ++ '-' :: '-' :: '-' :: ys) = some xs.length := by
  intro xs
  induction xs with
  | nil => intro ys _ _; rfl
  | cons c rest ih =>
    intro ys h hl
    have hd := findDashes_cons_none_iff.mp h
    have hlr : rest.getLast? ≠ some '-' := by
      cases rest with
      | nil => simp
      | cons d ds => rw [List.getLast?_cons_cons] at hl; exact hl
    have htf : tripleAt (c :: (rest ++ '-' :: '-' :: '-' :: ys)) = false := by
      cases rest with
      | nil =>
        have hc : ¬ (c = '-') := fun he => hl (by simp [he])
        simp only [List.cons_append, List.nil_append, tripleAt_cons3]
        simp [hc]
      | cons d ds =>
        cases ds with
        | nil =>
          have hdne : ¬ (d = '-') := fun he => hl (by simp [he])
          simp only [List.cons_append, List.nil_append, tripleAt_cons3]
          simp [hdne]
        | cons e es =>
          have h3 := hd.1
          rw [tripleAt_cons3] at h3
          simp only [List.cons_append, tripleAt_cons3]
          simpa using h3
    rw [List.cons_append, findDashes]
    rw [htf, if_neg (by simp), ih ys hd.2 hlr]
    simp

/-- C8 counterexample: in `---\ntitle: a---b\n---\nbody` the closing
delimiter the code uses is the `---` inside the mid-line value `a---b`,
not the marker line below it: the parsed mapping is `{title: "a"}`, not
`{title: "a---b"}`. -/
theorem close_delimiter_matches_mid_line :
    parse_frontmatter (lc "---\ntitle: a---b\n---\nbody") = [(lc "title", .vstr (lc "a"))] ∧
    parse_frontmatter (lc "---\ntitle: a---b\n---\nbody") ≠ [(lc "title", .vstr (lc "a---b"))] :=
  ⟨by decide, by decide⟩

/-- C8 (amended): the metadata block recognized by both `parse_frontmatter`
and `update_frontmatter_tags` is delimited by the literal prefix `---` at
the start of the file and by the *first occurrence of the substring `---`*
after position 3 — even one occurring mid-line inside the block content;
it is not required to be a marker line.  For a document
`--- ++ pre ++ --- ++ suf` whose region `pre` contains no `---` and does
not end in `'-'`, both functions use exactly `pre` as the enclosed region,
and the serializer keeps what follows the close (skipping the close plus
one character, normally its newline). -/
theorem delimiters_are_substring_matches (pre suf : List Char) (nt : List (List Char))
    (hfree : findDashes pre = none) (hlast : pre.getLast? ≠ some '-') :
    parse_frontmatter ('-' :: '-' :: '-' :: (pre ++ '-' :: '-' :: '-' :: suf)) =
      (yamlLoad pre).getD [] ∧
    update_frontmatter_tags ('-' :: '-' :: '-' :: (pre ++ '-' :: '-' :: '-' :: suf)) nt =
      (match yamlLoad pre with
       | none => '-' :: '-' :: '-' :: (pre ++ '-' :: '-' :: '-' :: suf)
       | some fm =>
         lc "---\n" ++ yamlDump (dictInsert fm tagsKey (.vlist (sortedSet nt))) ++
           lc "---\n" ++ suf.drop 1) := by
  have hdrop3 : (('-' :: '-' :: '-' :: (pre ++ '-' :: '-' :: '-' :: suf)) : List Char).drop 3 =
      pre ++ '-' :: '-' :: '-' :: suf := rfl
  have hfind := findDashes_append_boundary pre suf hfree hlast
  have hdrop : (('-' :: '-' :: '-' :: (pre ++ '-' :: '-' :: '-' :: suf)) : List Char).drop
      (3 + pre.length + 4) = suf.drop 1 := by
    rw [show 3 + pre.length + 4 = (pre.length + 3 + 1) + 1 + 1 + 1 by omega]
    rw [List.drop_succ_cons, List.drop_succ_cons, List.drop_succ_cons]
    rw [show pre ++ '-' :: '-' :: '-' :: suf = pre ++ (['-', '-', '-'] ++ suf) by simp]
    rw [← List.append_assoc]
    rw [show pre.length + 3 + 1 = (pre ++ ['-', '-', '-']).length + 1 by simp]
    rw [List.drop_append]
  constructor
  · rw [parse_frontmatter, if_pos (by simp [tripleAt_cons3]), hdrop3, hfind]
    show (match yamlLoad ((pre ++ '-' :: '-' :: '-' :: suf).take pre.length) with
          | none => ([] : YDict)
          | some d => d) = (yamlLoad pre).getD []
    rw [List.take_left]
    cases yamlLoad pre <;> rfl
  · rw [update_frontmatter_tags, if_pos (by simp [tripleAt_cons3]), hdrop3, hfind]
    show (match yamlLoad ((pre ++ '-' :: '-' :: '-' :: suf).take pre.length) with
          | none => '-' :: '-' :: '-' :: (pre ++ '-' :: '-' :: '-' :: suf)
          | some fm =>
            lc "---\n" ++ yamlDump (dictInsert fm tagsKey (.vlist (sortedSet nt))) ++
              lc "---\n" ++
              (('-' :: '-' :: '-' :: (pre ++ '-' :: '-' :: '-' :: suf)) : List Char).drop
                (3 + pre.length + 4)) = _
    rw [List.take_left]
    cases yamlLoad pre with
    | none => rfl
    | some fm => rw [hdrop]

/-- C8 witness: the amended characterization at a concrete document whose
close directly follows the frontmatter text. -/
theorem delimiters_are_substring_matches_witness :
    parse_frontmatter (lc "---\ntitle: a---\nbody") = [(lc "title", .vstr (lc "a"))] := by
  have h := (delimiters_are_substring_matches (lc "\ntitle: a") (lc "\nbody") []
    (by decide) (by decide)).1
  have he : ('-' :: '-' :: '-' :: (lc "\ntitle: a" ++ '-' :: '-' :: '-' :: lc "\nbody")) =
      lc "---\ntitle: a---\nbody" := by decide
  rw [he] at h
  rw [h]
  decide

/-! ## Claims C3 and C9: the parse / serialize round trip

The remainder of the development proves that, on a well-formed document,
`parse_frontmatter` recovers the frontmatter mapping and
`update_frontmatter_tags` rebuilds an equivalent block (with `tags`
overwritten by the sorted deduplicated list) followed by the untouched
body.  The spine is a load/dump round trip for the modelled YAML subset. -/

theorem dropWhile_sp_eq_self {l : List Char} (h : l.head? ≠ some ' ') :
    l.dropWhile (· = ' ') = l := by
  cases l with
  | nil => rfl
  | cons c t =>
    have hc : ¬ (c = ' ') := fun he => h (by simp [he])
    simp [List.dropWhile_cons, hc]

theorem stripSp_eq_self {l : List Char} (h1 : l.head? ≠ some ' ') (h2 : l.getLast? ≠ some ' ') :
    stripSp l = l := by
  unfold stripSp dropSp
  rw [show l.reverse.dropWhile (· = ' ') = l.reverse from
    dropWhile_sp_eq_self (by rw [List.head?_reverse]; exact h2)]
  rw [List.reverse_reverse]
  exact dropWhile_sp_eq_self h1

/-- Unpack the conjuncts of `plainWord`. -/
theorem plainWord_spec {s : List Char} (h : plainWord s = true) :
    s.isEmpty = false ∧ (∀ c ∈ s, plainChar c = true) ∧
    (∀ c cs, s = c :: cs → c.isAlpha = true) ∧
    nullWords.contains s = false ∧ boolWords.contains s = false ∧ findDashes s = none := by
  unfold plainWord at h
  simp only [Bool.and_eq_true, Bool.not_eq_true', List.all_eq_true, Option.isNone_iff_eq_none] at h
  refine ⟨h.1.1.1.1.1, h.1.1.1.1.2, ?_, h.1.1.2, h.1.2, h.2⟩
  intro c cs he
  have := h.1.1.1.2
  rw [he] at this
  exact this

theorem plainChar_ne_space {c : Char} (h : plainChar c = true) : c ≠ ' ' := by
  intro he; subst he; exact absurd h (by decide)

theorem plainChar_ne_colon {c : Char} (h : plainChar c = true) : c ≠ ':' := by
  intro he; subst he; exact absurd h (by decide)

theorem plainChar_ne_nl {c : Char} (h : plainChar c = true) : c ≠ '\n' := by
  intro he; subst he; exact absurd h (by decide)

theorem isAlpha_ne_dash {c : Char} (h : c.isAlpha = true) : c ≠ '-' := by
  intro he; subst he; exact absurd h (by decide)

theorem isAlpha_ne_lbrack {c : Char} (h : c.isAlpha = true) : c ≠ '[' := by
  intro he; subst he; exact absurd h (by decide)

theorem isAlpha_ne_space {c : Char} (h : c.isAlpha = true) : c ≠ ' ' := by
  intro he; subst he; exact absurd h (by decide)

/-- A plain word is untouched by `stripSp`. -/
theorem stripSp_plainWord {s : List Char} (h : plainWord s = true) : stripSp s = s := by
  obtain ⟨hne, hall, hhd, -, -, -⟩ := plainWord_spec h
  cases s with
  | nil => rfl
  | cons c cs =>
    refine stripSp_eq_self (fun hc => ?_) (fun hl => ?_)
    · simp at hc
      exact plainChar_ne_space (hall c (by simp)) hc
    · have hmem : ' ' ∈ c :: cs := List.mem_of_mem_getLast? hl
      exact plainChar_ne_space (hall ' ' hmem) rfl

theorem splitColonSp_plain_append (k s : List Char) (hk : ∀ c ∈ k, c ≠ ':') :
    splitColonSp (k ++ ':' :: ' ' :: s) = some (k, s) := by
  induction k with
  | nil => rfl
  | cons c k2 ih =>
    have hc : ¬ (c = ':' && (k2 ++ ':' :: ' ' :: s).head?.getD ' ' = ' ')  := by
      simp [hk c (by simp)]
    rw [List.cons_append]
    cases hk2 : k2 ++ ':' :: ' ' :: s with
    | nil => cases k2 <;> simp at hk2
    | cons d rest =>
      rw [splitColonSp]
      have hcd : ¬ (c = ':' && d = ' ') = true := by
        simp [hk c (by simp)]
      rw [if_neg hcd, ← hk2, ih (fun x hx => hk x (by simp [hx]))]
      rfl

theorem splitColonSp_append_colon (k : List Char) (hk : ∀ c ∈ k, c ≠ ':') :
    splitColonSp (k ++ [':']) = none := by
  induction k with
  | nil => rfl
  | cons c k2 ih =>
    rw [List.cons_append]
    cases hk2 : k2 ++ [':'] with
    | nil => cases k2 <;> simp at hk2
    | cons d rest =>
      rw [splitColonSp]
      have hcd : ¬ (c = ':' && d = ' ') = true := by
        simp [hk c (by simp)]
      rw [if_neg hcd, ← hk2, ih (fun x hx => hk x (by simp [hx]))]
      rfl


theorem plainWord_head?_ne_space {s : List Char} (h : plainWord s = true) :
    s.head? ≠ some ' ' := by
  obtain ⟨-, -, hhd, -⟩ := plainWord_spec h
  cases s with
  | nil => simp
  | cons c cs =>
    simp only [List.head?_cons, ne_eq, Option.some.injEq]
    intro he
    exact isAlpha_ne_space (hhd c cs rfl) he

theorem plainWord_getLast?_ne_space {s : List Char} (h : plainWord s = true) :
    s.getLast? ≠ some ' ' := by
  obtain ⟨-, hall, -⟩ := plainWord_spec h
  intro hl
  exact plainChar_ne_space (hall ' ' (List.mem_of_mem_getLast? hl)) rfl

theorem plainWord_ne_nil {s : List Char} (h : plainWord s = true) : s ≠ [] := by
  obtain ⟨hne, -⟩ := plainWord_spec h
  cases s with
  | nil => simp at hne
  | cons c cs => simp

/-- `parseVal` on a plain word yields the string scalar. -/
theorem parseVal_plain {s : List Char} (h : plainWord s = true) :
    parseVal s = some (.vstr s) := by
  obtain ⟨-, -, hhd, hnull, -⟩ := plainWord_spec h
  cases s with
  | nil => exact absurd rfl (plainWord_ne_nil h)
  | cons c cs =>
    have hlb : ¬ (c = '[') := isAlpha_ne_lbrack (hhd c cs rfl)
    simp only [parseVal, hnull, Bool.false_eq_true, if_false, hlb, if_pos h]

/-- Classification of a well-formed `key: value` line: the key is taken
verbatim and the (stripped, nonempty) value handed to `parseVal`. -/
theorem classifyLine_keyline (k v : List Char) (hk : plainWord k = true)
    (hv1 : v.head? ≠ some ' ') (hv2 : v.getLast? ≠ some ' ') (hvne : v ≠ []) :
    classifyLine (k ++ ':' :: ' ' :: v) =
      (match parseVal v with
       | some yv => LineKind.keyVal k yv
       | none => LineKind.bad) := by
  obtain ⟨kc, ks, hke⟩ : ∃ c cs, k = c :: cs := by
    cases k with
    | nil => exact absurd rfl (plainWord_ne_nil hk)
    | cons c cs => exact ⟨c, cs, rfl⟩
  subst hke
  obtain ⟨-, hall, hhd, -⟩ := plainWord_spec hk
  have hkc : kc.isAlpha = true := hhd kc ks rfl
  have hstrip : stripSp (kc :: (ks ++ ':' :: ' ' :: v)) = kc :: (ks ++ ':' :: ' ' :: v) := by
    rw [← List.cons_append]
    refine stripSp_eq_self ?_ ?_
    · simp only [List.cons_append, List.head?_cons, ne_eq, Option.some.injEq]
      intro he
      exact isAlpha_ne_space hkc he
    · rw [List.getLast?_append_of_ne_nil _ (by simp)]
      rw [show (':' :: ' ' :: v).getLast? = v.getLast? from
        List.getLast?_append_of_ne_nil [':', ' '] hvne]
      exact hv2
  have hsplit : splitColonSp (kc :: (ks ++ ':' :: ' ' :: v)) = some (kc :: ks, v) := by
    rw [← List.cons_append]
    exact splitColonSp_plain_append (kc :: ks) v (fun c hc => plainChar_ne_colon (hall c hc))
  have hkdash : ¬ (kc = '-') := isAlpha_ne_dash hkc
  simp only [List.cons_append, classifyLine, hstrip, hkdash, if_false, hsplit]
  simp only [stripSp_plainWord hk, stripSp_eq_self hv1 hv2]
  rw [if_pos hk, if_neg (by simpa using hvne)]

/-- Classification of a `key:` line with no value. -/
theorem classifyLine_keyopen (k : List Char) (hk : plainWord k = true) :
    classifyLine (k ++ [':']) = LineKind.keyOpen k := by
  obtain ⟨kc, ks, hke⟩ : ∃ c cs, k = c :: cs := by
    cases k with
    | nil => exact absurd rfl (plainWord_ne_nil hk)
    | cons c cs => exact ⟨c, cs, rfl⟩
  subst hke
  obtain ⟨-, hall, hhd, -⟩ := plainWord_spec hk
  have hkc : kc.isAlpha = true := hhd kc ks rfl
  have hstrip : stripSp (kc :: (ks ++ [':'])) = kc :: (ks ++ [':']) := by
    rw [← List.cons_append]
    refine stripSp_eq_self ?_ ?_
    · simp only [List.cons_append, List.head?_cons, ne_eq, Option.some.injEq]
      intro he
      exact isAlpha_ne_space hkc he
    · rw [List.getLast?_concat]
      simp
  have hsplit : splitColonSp (kc :: (ks ++ [':'])) = none := by
    rw [← List.cons_append]
    exact splitColonSp_append_colon (kc :: ks) (fun c hc => plainChar_ne_colon (hall c hc))
  have hkdash : ¬ (kc = '-') := isAlpha_ne_dash hkc
  have hrev : (kc :: (ks ++ [':'])).reverse = ':' :: (kc :: ks).reverse := by
    rw [← List.cons_append, List.reverse_append]
    rfl
  simp only [List.cons_append, classifyLine, hstrip, hkdash, if_false, hsplit, hrev,
    List.reverse_reverse]
  rw [stripSp_plainWord hk, if_pos hk]

/-- Classification of a `- item` line. -/
theorem classifyLine_item (x : List Char) (hx : plainWord x = true) :
    classifyLine ('-' :: ' ' :: x) = LineKind.item x := by
  have hstrip : stripSp ('-' :: ' ' :: x) = '-' :: ' ' :: x := by
    refine stripSp_eq_self (by simp) ?_
    rw [show ('-' :: ' ' :: x).getLast? = x.getLast? from
      List.getLast?_append_of_ne_nil ['-', ' '] (plainWord_ne_nil hx)]
    exact plainWord_getLast?_ne_space hx
  simp only [classifyLine, hstrip, stripSp_plainWord hx, hx, if_true, ite_true]

/-- Classification of the empty line. -/
theorem classifyLine_nil : classifyLine [] = LineKind.blank := rfl

/-! ### Dump lines -/

/-- Join lines with a trailing newline each. -/
def unlines (ls : List (List Char)) : List Char := (ls.map (fun l => l ++ ['\n'])).flatten

/-- The lines (without newlines) that `dumpVal` emits. -/
def valLines (k : List Char) : YVal → List (List Char)
  | .vstr s => [k ++ ':' :: ' ' :: s]
  | .vnull => [k ++ ':' :: ' ' :: lc "null"]
  | .vlist [] => [k ++ ':' :: ' ' :: lc "[]"]
  | .vlist (x :: xs) => (k ++ [':']) :: (x :: xs).map (fun t => '-' :: ' ' :: t)

/-- The lines that `yamlDump` emits. -/
def dumpLines (d : YDict) : List (List Char) := (d.map (fun p => valLines p.1 p.2)).flatten

theorem unlines_append (a b : List (List Char)) : unlines (a ++ b) = unlines a ++ unlines b := by
  simp [unlines]

theorem dumpVal_eq_unlines (k : List Char) (v : YVal) : dumpVal k v = unlines (valLines k v) := by
  cases v with
  | vstr s => simp [dumpVal, valLines, unlines]
  | vnull => simp [dumpVal, valLines, unlines]; decide
  | vlist l =>
    cases l with
    | nil => simp [dumpVal, valLines, unlines]; decide
    | cons x xs =>
      simp [dumpVal, valLines, unlines, List.map_map, Function.comp_def]

theorem yamlDump_eq_unlines (d : YDict) : yamlDump d = unlines (dumpLines d) := by
  induction d with
  | nil => rfl
  | cons p rest ih =>
    show dumpVal p.1 p.2 ++ yamlDump rest = _
    rw [show dumpLines (p :: rest) = valLines p.1 p.2 ++ dumpLines rest by simp [dumpLines],
      unlines_append, ih, dumpVal_eq_unlines]

theorem splitLines_ne_nil (t : List Char) : splitLines t ≠ [] := by
  induction t with
  | nil => simp [splitLines]
  | cons c rest ih =>
    rw [splitLines]
    cases h : splitLines rest with
    | nil => simp
    | cons l ls => dsimp only; split <;> simp

theorem splitLines_cons_nl (t : List Char) : splitLines ('\n' :: t) = [] :: splitLines t := by
  rw [splitLines]
  cases h : splitLines t with
  | nil => exact absurd h (splitLines_ne_nil t)
  | cons l ls => simp

theorem splitLines_noNl_append (l t : List Char) (h : '\n' ∉ l) :
    splitLines (l ++ '\n' :: t) = l :: splitLines t := by
  induction l with
  | nil => simpa using splitLines_cons_nl t
  | cons c cs ih =>
    have hc : ¬ (c = '\n') := fun he => h (by simp [he])
    have ih2 := ih (fun hm => h (by simp [hm]))
    rw [List.cons_append, splitLines, ih2]
    simp [hc]

theorem splitLines_unlines (ls : List (List Char)) (h : ∀ l ∈ ls, '\n' ∉ l) :
    splitLines (unlines ls) = ls ++ [[]] := by
  induction ls with
  | nil => rfl
  | cons l rest ih =>
    rw [show unlines (l :: rest) = l ++ '\n' :: unlines rest by simp [unlines]]
    rw [splitLines_noNl_append _ _ (h l (by simp)), ih (fun x hx => h x (by simp [hx]))]
    rfl

/-! ### No stray `---` or newline inside dumped lines -/

theorem tripleAt_false_head {c : Char} (hc : c ≠ '-') (t : List Char) :
    tripleAt (c :: t) = false := by
  cases t with
  | nil => rfl
  | cons d t2 =>
    cases t2 with
    | nil => rfl
    | cons e t3 => simp [tripleAt_cons3, hc]

theorem findDashes_cons_nondash {c : Char} {b : List Char} (hc : c ≠ '-')
    (hb : findDashes b = none) : findDashes (c :: b) = none := by
  rw [findDashes, tripleAt_false_head hc, if_neg (by simp), hb]
  rfl

theorem findDashes_append_sep (a b : List Char) (c : Char) (hc : c ≠ '-')
    (ha : findDashes a = none) (hb : findDashes b = none) :
    findDashes (a ++ c :: b) = none := by
  induction a with
  | nil => simpa using findDashes_cons_nondash hc hb
  | cons x xs ih =>
    have hd := findDashes_cons_none_iff.mp ha
    have htf : tripleAt (x :: (xs ++ c :: b)) = false := by
      cases xs with
      | nil =>
        cases b with
        | nil => rfl
        | cons b0 bs => simp [tripleAt_cons3, hc]
      | cons y ys =>
        cases ys with
        | nil => simp [tripleAt_cons3, hc]
        | cons z zs =>
          have h3 := hd.1
          rw [tripleAt_cons3] at h3
          simp only [List.cons_append, tripleAt_cons3]
          simpa using h3
    rw [List.cons_append, findDashes, htf, if_neg (by simp), ih hd.2]
    rfl

theorem findDashes_keyline (k s : List Char) (hk : findDashes k = none)
    (hs : findDashes s = none) : findDashes (k ++ ':' :: ' ' :: s) = none :=
  findDashes_append_sep k (' ' :: s) ':' (by decide) hk
    (findDashes_cons_nondash (by decide) hs)

theorem findDashes_item (t : List Char) (ht : findDashes t = none) :
    findDashes ('-' :: ' ' :: t) = none := by
  have h1 : findDashes (' ' :: t) = none := findDashes_cons_nondash (by decide) ht
  have h2 : tripleAt ('-' :: ' ' :: t) = false := by
    cases t with
    | nil => rfl
    | cons x xs => simp [tripleAt_cons3]
  rw [findDashes, h2, if_neg (by simp), h1]
  rfl

theorem findDashes_unlines (ls : List (List Char)) (h : ∀ l ∈ ls, findDashes l = none) :
    findDashes (unlines ls) = none := by
  induction ls with
  | nil => rfl
  | cons l rest ih =>
    rw [show unlines (l :: rest) = l ++ '\n' :: unlines rest by simp [unlines]]
    exact findDashes_append_sep _ _ _ (by decide) (h l (by simp))
      (ih fun x hx => h x (by simp [hx]))

/-! ### Safe dictionaries and the load/dump round trip -/

/-- Values whose dump re-loads verbatim in the modelled subset. -/
def SafeVal : YVal → Bool
  | .vstr s => plainWord s
  | .vnull => true
  | .vlist l => l.all plainWord

/-- All keys and values of the dictionary are in the modelled plain subset. -/
def SafeEntries (d : YDict) : Prop := ∀ p ∈ d, plainWord p.1 = true ∧ SafeVal p.2 = true

/-- The keys of a dictionary, in order. -/
def keys (d : YDict) : List (List Char) := d.map Prod.fst

theorem keys_append (a b : YDict) : keys (a ++ b) = keys a ++ keys b := by
  simp [keys]

theorem dictInsert_fresh (d : YDict) (k : List Char) (v : YVal) (h : k ∉ keys d) :
    dictInsert d k v = d ++ [(k, v)] := by
  induction d with
  | nil => rfl
  | cons p rest ih =>
    obtain ⟨k', v'⟩ := p
    rw [show keys ((k', v') :: rest) = k' :: keys rest from rfl] at h
    simp only [List.mem_cons, not_or] at h
    rw [dictInsert, if_neg (fun he => h.1 he.symm), ih h.2]
    rfl

theorem plainWord_no_dashes {s : List Char} (h : plainWord s = true) : findDashes s = none :=
  (plainWord_spec h).2.2.2.2.2

theorem plainWord_no_nl {s : List Char} (h : plainWord s = true) : '\n' ∉ s := by
  intro hm
  exact plainChar_ne_nl ((plainWord_spec h).2.1 '\n' hm) rfl

/-- No dumped line contains a newline. -/
theorem valLines_no_nl (k : List Char) (v : YVal) (hk : plainWord k = true)
    (hv : SafeVal v = true) : ∀ l ∈ valLines k v, '\n' ∉ l := by
  have hknl := plainWord_no_nl hk
  cases v with
  | vstr s =>
    intro l hl
    simp [valLines] at hl
    subst hl
    intro hm
    rcases List.mem_append.mp hm with hm1 | hm2
    · exact hknl hm1
    · simp only [List.mem_cons] at hm2
      rcases hm2 with he | he | hm3
      · exact absurd he (by decide)
      · exact absurd he (by decide)
      · exact plainWord_no_nl hv hm3
  | vnull =>
    intro l hl
    simp [valLines] at hl
    subst hl
    intro hm
    rcases List.mem_append.mp hm with hm1 | hm2
    · exact hknl hm1
    · revert hm2; decide
  | vlist xs =>
    cases xs with
    | nil =>
      intro l hl
      simp [valLines] at hl
      subst hl
      intro hm
      rcases List.mem_append.mp hm with hm1 | hm2
      · exact hknl hm1
      · revert hm2; decide
    | cons x xs2 =>
      intro l hl
      simp only [valLines, List.mem_cons, List.mem_map] at hl
      rcases hl with hl | ⟨t, ht, hl⟩
      · subst hl
        intro hm
        rcases List.mem_append.mp hm with hm1 | hm2
        · exact hknl hm1
        · revert hm2; decide
      · subst hl
        have hpt : plainWord t = true := by
          simp only [SafeVal, List.all_eq_true] at hv
          exact hv t (by simpa using ht)
        intro hm
        simp only [List.mem_cons] at hm
        rcases hm with he | he | hm3
        · exact absurd he (by decide)
        · exact absurd he (by decide)
        · exact plainWord_no_nl hpt hm3

theorem dumpLines_no_nl (d : YDict) (hsafe : SafeEntries d) :
    ∀ l ∈ dumpLines d, '\n' ∉ l := by
  induction d with
  | nil => simp [dumpLines]
  | cons p rest ih =>
    intro l hl
    rw [show dumpLines (p :: rest) = valLines p.1 p.2 ++ dumpLines rest by simp [dumpLines]] at hl
    rcases List.mem_append.mp hl with h1 | h2
    · exact valLines_no_nl p.1 p.2 (hsafe p (by simp)).1 (hsafe p (by simp)).2 l h1
    · exact ih (fun q hq => hsafe q (by simp [hq])) l h2

/-- No dumped line contains `---`. -/
theorem valLines_no_dashes (k : List Char) (v : YVal) (hk : plainWord k = true)
    (hv : SafeVal v = true) : ∀ l ∈ valLines k v, findDashes l = none := by
  have hkd := plainWord_no_dashes hk
  cases v with
  | vstr s =>
    intro l hl
    simp [valLines] at hl
    subst hl
    exact findDashes_keyline k s hkd (plainWord_no_dashes hv)
  | vnull =>
    intro l hl
    simp [valLines] at hl
    subst hl
    exact findDashes_keyline k _ hkd (by decide)
  | vlist xs =>
    cases xs with
    | nil =>
      intro l hl
      simp [valLines] at hl
      subst hl
      exact findDashes_keyline k _ hkd (by decide)
    | cons x xs2 =>
      intro l hl
      simp only [valLines, List.mem_cons, List.mem_map] at hl
      rcases hl with hl | ⟨t, ht, hl⟩
      · subst hl
        exact findDashes_append_sep k [] ':' (by decide) hkd rfl
      · subst hl
        have hpt : plainWord t = true := by
          simp only [SafeVal, List.all_eq_true] at hv
          exact hv t (by simpa using ht)
        exact findDashes_item t (plainWord_no_dashes hpt)

theorem dumpLines_no_dashes (d : YDict) (hsafe : SafeEntries d) :
    ∀ l ∈ dumpLines d, findDashes l = none := by
  induction d with
  | nil => simp [dumpLines]
  | cons p rest ih =>
    intro l hl
    rw [show dumpLines (p :: rest) = valLines p.1 p.2 ++ dumpLines rest by simp [dumpLines]] at hl
    rcases List.mem_append.mp hl with h1 | h2
    · exact valLines_no_dashes p.1 p.2 (hsafe p (by simp)).1 (hsafe p (by simp)).2 l h1
    · exact ih (fun q hq => hsafe q (by simp [hq])) l h2

/-- Running the loader over the block-list item lines appends the items to
the pending entry. -/
theorem loadLines_items (items : List (List Char)) :
    ∀ (rest : List (List Char)) (k : List Char) (acc0 : List (List Char)) (acc : YDict),
    (∀ x ∈ items, plainWord x = true) →
    loadLines ((items.map (fun x => '-' :: ' ' :: x)) ++ rest) (some (k, acc0)) acc =
      loadLines rest (some (k, acc0 ++ items)) acc := by
  induction items with
  | nil => intro rest k acc0 acc _; simp
  | cons x xs ih =>
    intro rest k acc0 acc h
    rw [List.map_cons, List.cons_append, loadLines, classifyLine_item x (h x (by simp))]
    dsimp only
    rw [ih rest k (acc0 ++ [x]) acc (fun t ht => h t (by simp [ht]))]
    simp

/-- The loader inverts the dumper, appending the dumped entries after the
already-accumulated ones. -/
theorem loadLines_dumpLines (d : YDict) :
    ∀ (pend : Option (List Char × List (List Char))) (acc : YDict),
    SafeEntries d →
    (keys (flushPend pend acc) ++ keys d).Nodup →
    loadLines (dumpLines d ++ [[]]) pend acc = some (flushPend pend acc ++ d) := by
  induction d with
  | nil =>
    intro pend acc _ _
    show loadLines ([[]]) pend acc = _
    rw [loadLines, classifyLine_nil]
    simp [loadLines]
  | cons p rest ih =>
    obtain ⟨k, v⟩ := p
    intro pend acc hsafe hnodup
    have hk : plainWord k = true := (hsafe (k, v) (by simp)).1
    have hv : SafeVal v = true := (hsafe (k, v) (by simp)).2
    have hsafer : SafeEntries rest := fun q hq => hsafe q (by simp [hq])
    have hnodup1 : (keys (flushPend pend acc) ++ k :: keys rest).Nodup := hnodup
    have hkfresh : k ∉ keys (flushPend pend acc) := by
      intro hm
      exact (List.nodup_append.mp hnodup1).2.2 hm (List.mem_cons_self k _)
    have hnodup2 : (keys (flushPend pend acc ++ [(k, v)]) ++ keys rest).Nodup := by
      rw [keys_append, List.append_assoc]
      exact hnodup1
    have hins : dictInsert (flushPend pend acc) k v =
        flushPend pend acc ++ [(k, v)] := dictInsert_fresh _ k v hkfresh
    have hassoc : ((flushPend pend acc ++ [(k, v)]) ++ rest : YDict) =
        flushPend pend acc ++ (k, v) :: rest := by
      rw [List.append_assoc, List.singleton_append]
    cases v with
    | vstr s =>
      have hps : plainWord s = true := hv
      rw [show dumpLines (((k, YVal.vstr s)) :: rest) =
        (k ++ ':' :: ' ' :: s) :: dumpLines rest by simp [dumpLines, valLines]]
      rw [List.cons_append, loadLines,
        classifyLine_keyline k s hk (plainWord_head?_ne_space hps)
          (plainWord_getLast?_ne_space hps) (plainWord_ne_nil hps),
        parseVal_plain hps]
      dsimp only
      rw [hins, ih none (flushPend pend acc ++ [(k, YVal.vstr s)]) hsafer hnodup2]
      rw [show flushPend none (flushPend pend acc ++ [(k, YVal.vstr s)]) =
        flushPend pend acc ++ [(k, YVal.vstr s)] from rfl, hassoc]
    | vnull =>
      rw [show dumpLines (((k, YVal.vnull)) :: rest) =
        (k ++ ':' :: ' ' :: lc "null") :: dumpLines rest by simp [dumpLines, valLines]]
      rw [List.cons_append, loadLines,
        classifyLine_keyline k (lc "null") hk (by decide) (by decide) (by decide)]
      rw [show parseVal (lc "null") = some YVal.vnull from rfl]
      dsimp only
      rw [hins, ih none (flushPend pend acc ++ [(k, YVal.vnull)]) hsafer hnodup2]
      rw [show flushPend none (flushPend pend acc ++ [(k, YVal.vnull)]) =
        flushPend pend acc ++ [(k, YVal.vnull)] from rfl, hassoc]
    | vlist xs =>
      cases xs with
      | nil =>
        rw [show dumpLines (((k, YVal.vlist [])) :: rest) =
          (k ++ ':' :: ' ' :: lc "[]") :: dumpLines rest by simp [dumpLines, valLines]]
        rw [List.cons_append, loadLines,
          classifyLine_keyline k (lc "[]") hk (by decide) (by decide) (by decide)]
        rw [show parseVal (lc "[]") = some (YVal.vlist []) from rfl]
        dsimp only
        rw [hins, ih none (flushPend pend acc ++ [(k, YVal.vlist [])]) hsafer hnodup2]
        rw [show flushPend none (flushPend pend acc ++ [(k, YVal.vlist [])]) =
          flushPend pend acc ++ [(k, YVal.vlist [])] from rfl, hassoc]
      | cons x xs2 =>
        have hall : ∀ t ∈ x :: xs2, plainWord t = true := by
          simpa [SafeVal, List.all_eq_true] using hv
        rw [show dumpLines (((k, YVal.vlist (x :: xs2))) :: rest) =
          (k ++ [':']) :: ((x :: xs2).map (fun t => '-' :: ' ' :: t) ++ dumpLines rest)
          by simp [dumpLines, valLines]]
        rw [List.cons_append, loadLines, classifyLine_keyopen k hk]
        dsimp only
        rw [List.append_assoc]
        rw [loadLines_items (x :: xs2) (dumpLines rest ++ [[]]) k [] (flushPend pend acc) hall]
        rw [show (([] : List (List Char)) ++ (x :: xs2)) = x :: xs2 from rfl]
        have hflush : flushPend (some (k, x :: xs2)) (flushPend pend acc) =
            flushPend pend acc ++ [(k, YVal.vlist (x :: xs2))] := by
          show dictInsert (flushPend pend acc) k (YVal.vlist (x :: xs2)) = _
          exact dictInsert_fresh _ _ _ hkfresh
        rw [ih (some (k, x :: xs2)) (flushPend pend acc) hsafer (by rw [hflush]; exact hnodup2)]
        rw [hflush, hassoc]

/-- `yaml.safe_load` inverts `yaml.dump` on safe dictionaries. -/
theorem yamlLoad_yamlDump (d : YDict) (hsafe : SafeEntries d) (hnodup : (keys d).Nodup) :
    yamlLoad (yamlDump d) = some d := by
  unfold yamlLoad
  rw [yamlDump_eq_unlines, splitLines_unlines _ (dumpLines_no_nl d hsafe)]
  rw [loadLines_dumpLines d none [] hsafe (by simpa [keys] using hnodup)]
  rfl

/-! ### Dictionary lookup/insert lemmas -/

theorem dictGet?_dictInsert_self (d : YDict) (k : List Char) (v : YVal) :
    dictGet? (dictInsert d k v) k = some v := by
  induction d with
  | nil => simp [dictInsert, dictGet?]
  | cons p rest ih =>
    obtain ⟨k', v'⟩ := p
    by_cases h : k' = k
    · subst h; simp [dictInsert, dictGet?]
    · simp [dictInsert, dictGet?, h, ih]

theorem dictGet?_dictInsert_ne (d : YDict) (k : List Char) (v : YVal) (k2 : List Char)
    (h : k2 ≠ k) : dictGet? (dictInsert d k v) k2 = dictGet? d k2 := by
  have hne : ¬ (k = k2) := fun he => h he.symm
  induction d with
  | nil => simp [dictInsert, dictGet?, hne]
  | cons p rest ih =>
    obtain ⟨k', v'⟩ := p
    by_cases hk : k' = k
    · subst hk
      simp [dictInsert, dictGet?, hne]
    · rw [dictInsert, if_neg hk]
      by_cases h2 : k' = k2 <;> simp [dictGet?, h2, ih]

theorem mem_dictInsert {d : YDict} {k : List Char} {v : YVal} {p : List Char × YVal}
    (h : p ∈ dictInsert d k v) : p ∈ d ∨ p = (k, v) := by
  induction d with
  | nil => simpa [dictInsert] using h
  | cons q rest ih =>
    obtain ⟨k', v'⟩ := q
    by_cases hk : k' = k
    · subst hk
      rw [dictInsert, if_pos rfl] at h
      rcases List.mem_cons.mp h with he | hm
      · exact Or.inr (by rw [he])
      · exact Or.inl (by simp [hm])
    · rw [dictInsert, if_neg hk] at h
      rcases List.mem_cons.mp h with he | hm
      · exact Or.inl (by simp [he])
      · rcases ih hm with h1 | h2
        · exact Or.inl (by simp [h1])
        · exact Or.inr h2

theorem SafeEntries_dictInsert {d : YDict} {k : List Char} {v : YVal}
    (hd : SafeEntries d) (hk : plainWord k = true) (hv : SafeVal v = true) :
    SafeEntries (dictInsert d k v) := fun p hp =>
  (mem_dictInsert hp).elim (hd p) (fun he => by rw [he]; exact ⟨hk, hv⟩)

theorem keys_dictInsert_mem (d : YDict) (k : List Char) (v : YVal) (h : k ∈ keys d) :
    keys (dictInsert d k v) = keys d := by
  induction d with
  | nil => simp [keys] at h
  | cons p rest ih =>
    obtain ⟨k', v'⟩ := p
    by_cases hk : k' = k
    · subst hk; rw [dictInsert, if_pos rfl]; rfl
    · rw [dictInsert, if_neg hk]
      have hm : k ∈ keys rest := by
        rcases List.mem_cons.mp h with he | hm
        · exact absurd he.symm hk
        · exact hm
      rw [show keys ((k', v') :: dictInsert rest k v) = k' :: keys (dictInsert rest k v)
        from rfl, ih hm]
      rfl

theorem keys_nodup_dictInsert {d : YDict} {k : List Char} {v : YVal}
    (h : (keys d).Nodup) : (keys (dictInsert d k v)).Nodup := by
  by_cases hm : k ∈ keys d
  · rw [keys_dictInsert_mem d k v hm]; exact h
  · rw [dictInsert_fresh d k v hm, keys_append]
    exact List.nodup_append.mpr ⟨h, List.nodup_singleton k,
      fun x hx hxk => hm (by rwa [List.mem_singleton.mp hxk] at hx)⟩

theorem dictGet?_mem {d : YDict} {k : List Char} {v : YVal} (h : dictGet? d k = some v) :
    (k, v) ∈ d := by
  induction d with
  | nil => simp [dictGet?] at h
  | cons p rest ih =>
    obtain ⟨k', v'⟩ := p
    by_cases hk : k' = k
    · subst hk
      rw [dictGet?, if_pos rfl] at h
      simp at h
      simp [h]
    · rw [dictGet?, if_neg hk] at h
      simp [ih h]

theorem dictInsert_ne_nil (d : YDict) (k : List Char) (v : YVal) : dictInsert d k v ≠ [] := by
  cases d with
  | nil => simp [dictInsert]
  | cons p rest =>
    obtain ⟨k', v'⟩ := p
    rw [dictInsert]
    split <;> simp

/-! ### The output document re-parses -/

theorem unlines_ne_nil (l : List Char) (ls : List (List Char)) : unlines (l :: ls) ≠ [] := by
  simp [unlines]

theorem unlines_getLast? (l : List Char) (ls : List (List Char)) :
    (unlines (l :: ls)).getLast? = some '\n' := by
  induction ls generalizing l with
  | nil =>
    rw [show unlines [l] = l ++ ['\n'] by simp [unlines]]
    exact List.getLast?_concat l
  | cons m ms ih =>
    rw [show unlines (l :: m :: ms) = (l ++ ['\n']) ++ unlines (m :: ms) by simp [unlines]]
    rw [List.getLast?_append_of_ne_nil _ (unlines_ne_nil m ms)]
    exact ih m

theorem valLines_ne_nil (k : List Char) (v : YVal) : valLines k v ≠ [] := by
  cases v with
  | vstr s => simp [valLines]
  | vnull => simp [valLines]
  | vlist l => cases l <;> simp [valLines]

theorem dumpLines_cons_ne_nil (p : List Char × YVal) (rest : YDict) :
    dumpLines (p :: rest) ≠ [] := by
  rw [show dumpLines (p :: rest) = valLines p.1 p.2 ++ dumpLines rest by simp [dumpLines]]
  intro h
  rcases List.append_eq_nil.mp h with ⟨h1, -⟩
  exact valLines_ne_nil p.1 p.2 h1

theorem yamlDump_getLast? (d : YDict) (hne : d ≠ []) :
    (yamlDump d).getLast? = some '\n' := by
  cases d with
  | nil => exact absurd rfl hne
  | cons p rest =>
    rw [yamlDump_eq_unlines]
    cases h : dumpLines (p :: rest) with
    | nil => exact absurd h (dumpLines_cons_ne_nil p rest)
    | cons l ls => exact unlines_getLast? l ls

theorem yamlDump_no_dashes (d : YDict) (hsafe : SafeEntries d) :
    findDashes (yamlDump d) = none := by
  rw [yamlDump_eq_unlines]
  exact findDashes_unlines _ (dumpLines_no_dashes d hsafe)

theorem yamlLoad_cons_nl (s : List Char) : yamlLoad ('\n' :: s) = yamlLoad s := by
  unfold yamlLoad
  rw [splitLines_cons_nl]
  rfl

/-- A document `---\n` ++ fmText ++ `\n---\n` ++ body: a well-formed
metadata block at the very start, closed by a marker line, followed by the
body. -/
def mkDoc (fmText body : List Char) : List Char :=
  '-' :: '-' :: '-' :: '\n' :: (fmText ++ '\n' :: '-' :: '-' :: '-' :: '\n' :: body)

/-- Master round-trip lemma: on a well-formed document whose frontmatter
region (no stray `---`) loads to a safe mapping `d`, `parse_frontmatter`
returns `d`, and `update_frontmatter_tags` with plain tags `nt` rebuilds
the dumped block with `tags` overwritten by `sortedSet nt`, keeps the body
verbatim, and the result re-parses to exactly that updated mapping. -/
theorem wellformed_roundtrip (fmText body : List Char) (d : YDict) (nt : List (List Char))
    (hfree : findDashes ('\n' :: (fmText ++ ['\n'])) = none)
    (hload : yamlLoad ('\n' :: (fmText ++ ['\n'])) = some d)
    (hsafe : SafeEntries d) (hnodup : (keys d).Nodup)
    (hnt : ∀ t ∈ nt, plainWord t = true) :
    parse_frontmatter (mkDoc fmText body) = d ∧
    update_frontmatter_tags (mkDoc fmText body) nt =
      lc "---\n" ++ yamlDump (dictInsert d tagsKey (.vlist (sortedSet nt))) ++
        lc "---\n" ++ body ∧
    parse_frontmatter (update_frontmatter_tags (mkDoc fmText body) nt) =
      dictInsert d tagsKey (.vlist (sortedSet nt)) := by
  have hdoc : mkDoc fmText body =
      '-' :: '-' :: '-' :: (('\n' :: (fmText ++ ['\n'])) ++ '-' :: '-' :: '-' :: ('\n' :: body)) := by
    simp [mkDoc]
  have hlast : ('\n' :: (fmText ++ ['\n'])).getLast? ≠ some '-' := by
    rw [show ('\n' :: (fmText ++ ['\n'])) = ('\n' :: fmText) ++ ['\n'] by simp]
    rw [List.getLast?_concat]
    simp
  have hmain := delimiters_are_substring_matches ('\n' :: (fmText ++ ['\n']))
    ('\n' :: body) nt hfree hlast
  rw [← hdoc] at hmain
  have h1 : parse_frontmatter (mkDoc fmText body) = d := by
    rw [hmain.1, hload]
    rfl
  have h2 : update_frontmatter_tags (mkDoc fmText body) nt =
      lc "---\n" ++ yamlDump (dictInsert d tagsKey (.vlist (sortedSet nt))) ++
        lc "---\n" ++ body := by
    rw [hmain.2, hload]
    rfl
  have hsafe2 : SafeVal (YVal.vlist (sortedSet nt)) = true := by
    simp only [SafeVal, List.all_eq_true]
    exact fun t ht => hnt t ((sortedSet_mem nt t).mp ht)
  have hsafeD : SafeEntries (dictInsert d tagsKey (.vlist (sortedSet nt))) :=
    SafeEntries_dictInsert hsafe (by decide) hsafe2
  have hnodupD : (keys (dictInsert d tagsKey (.vlist (sortedSet nt)))).Nodup :=
    keys_nodup_dictInsert hnodup
  have hDne : dictInsert d tagsKey (.vlist (sortedSet nt)) ≠ [] := dictInsert_ne_nil d _ _
  have hdumpfree : findDashes (yamlDump (dictInsert d tagsKey (.vlist (sortedSet nt)))) = none :=
    yamlDump_no_dashes _ hsafeD
  have hXne : yamlDump (dictInsert d tagsKey (.vlist (sortedSet nt))) ≠ [] := by
    intro h0
    have hgl := yamlDump_getLast? _ hDne
    rw [h0] at hgl
    simp at hgl
  have hpre2last : ('\n' :: yamlDump (dictInsert d tagsKey (.vlist (sortedSet nt)))).getLast? ≠
      some '-' := by
    rw [show ('\n' :: yamlDump (dictInsert d tagsKey (.vlist (sortedSet nt)))) =
      ['\n'] ++ yamlDump (dictInsert d tagsKey (.vlist (sortedSet nt))) from rfl]
    rw [List.getLast?_append_of_ne_nil _ hXne, yamlDump_getLast? _ hDne]
    simp
  have hmain2 := delimiters_are_substring_matches
    ('\n' :: yamlDump (dictInsert d tagsKey (.vlist (sortedSet nt)))) ('\n' :: body) nt
    (findDashes_cons_nondash (by decide) hdumpfree) hpre2last
  have hout : update_frontmatter_tags (mkDoc fmText body) nt =
      '-' :: '-' :: '-' :: (('\n' :: yamlDump (dictInsert d tagsKey (.vlist (sortedSet nt)))) ++
        '-' :: '-' :: '-' :: ('\n' :: body)) := by
    rw [h2]
    simp [show lc "---\n" = ['-', '-', '-', '\n'] from rfl, List.append_assoc]
  have h3 : parse_frontmatter (update_frontmatter_tags (mkDoc fmText body) nt) =
      dictInsert d tagsKey (.vlist (sortedSet nt)) := by
    rw [hout, hmain2.1, yamlLoad_cons_nl, yamlLoad_yamlDump _ hsafeD hnodupD]
    rfl
  exact ⟨h1, h2, h3⟩

/-- C3: for a document with a well-formed metadata block (in the modelled
subset) whose `tags` entry is a list `ts`, `parse_frontmatter` recovers the
mapping, and `update_frontmatter_tags` with that same tag list reproduces
an equivalent block — every non-tag key keeps its value, `tags` becomes the
sorted deduplicated list — followed by the body unchanged, and the output
re-parses to exactly that mapping. -/
theorem parse_then_serialize_roundtrip (fmText body : List Char) (d : YDict)
    (ts : List (List Char))
    (hfree : findDashes ('\n' :: (fmText ++ ['\n'])) = none)
    (hload : yamlLoad ('\n' :: (fmText ++ ['\n'])) = some d)
    (hsafe : SafeEntries d) (hnodup : (keys d).Nodup)
    (htags : dictGet? d tagsKey = some (.vlist ts)) :
    parse_frontmatter (mkDoc fmText body) = d ∧
    update_frontmatter_tags (mkDoc fmText body) ts =
      lc "---\n" ++ yamlDump (dictInsert d tagsKey (.vlist (sortedSet ts))) ++
        lc "---\n" ++ body ∧
    parse_frontmatter (update_frontmatter_tags (mkDoc fmText body) ts) =
      dictInsert d tagsKey (.vlist (sortedSet ts)) ∧
    dictGet? (parse_frontmatter (update_frontmatter_tags (mkDoc fmText body) ts)) tagsKey =
      some (.vlist (sortedSet ts)) ∧
    (∀ k, k ≠ tagsKey →
      dictGet? (parse_frontmatter (update_frontmatter_tags (mkDoc fmText body) ts)) k =
        dictGet? d k) ∧
    List.Sorted leStrP (sortedSet ts) ∧ (sortedSet ts).Nodup ∧
    (∀ x, x ∈ sortedSet ts ↔ x ∈ ts) := by
  have hmem := dictGet?_mem htags
  have hts : ∀ t ∈ ts, plainWord t = true := by
    have h2 := (hsafe _ hmem).2
    simpa [SafeVal, List.all_eq_true] using h2
  have hm := wellformed_roundtrip fmText body d ts hfree hload hsafe hnodup hts
  refine ⟨hm.1, hm.2.1, hm.2.2, ?_, ?_, sortedSet_sorted ts, sortedSet_nodup ts,
    fun x => sortedSet_mem ts x⟩
  · rw [hm.2.2, dictGet?_dictInsert_self]
  · intro k hk
    rw [hm.2.2, dictGet?_dictInsert_ne d _ _ k hk]

/-- C3 witness: a concrete two-key document; serializing with the parsed
tag list `["b","a"]` rebuilds the block with `tags: [a, b]` sorted and the
body `hello` untouched. -/
theorem parse_then_serialize_roundtrip_witness :
    update_frontmatter_tags (mkDoc (lc "title: note\ntags:\n- b\n- a") (lc "hello"))
        [lc "b", lc "a"] =
      lc "---\n" ++ lc "title: note\ntags:\n- a\n- b\n" ++ lc "---\n" ++ lc "hello" ∧
    dictGet? (parse_frontmatter (update_frontmatter_tags
        (mkDoc (lc "title: note\ntags:\n- b\n- a") (lc "hello")) [lc "b", lc "a"])) tagsKey =
      some (.vlist [lc "a", lc "b"]) := by
  have h := parse_then_serialize_roundtrip (lc "title: note\ntags:\n- b\n- a") (lc "hello")
    [(lc "title", .vstr (lc "note")), (tagsKey, .vlist [lc "b", lc "a"])] [lc "b", lc "a"]
    (by decide) (by decide) (by unfold SafeEntries; decide) (by decide) (by decide)
  constructor
  · rw [h.2.1]; decide
  · rw [h.2.2.2.1]; decide

/-- C9: on a well-formed document, `update_frontmatter_tags` round-trips
every non-tag key with its original value — re-parsing the written document
gives the same value as the original for all keys except `tags`, which is
overwritten with the sorted deduplicated new list. -/
theorem serialize_preserves_non_tag_keys (fmText body : List Char) (d : YDict)
    (nt : List (List Char))
    (hfree : findDashes ('\n' :: (fmText ++ ['\n'])) = none)
    (hload : yamlLoad ('\n' :: (fmText ++ ['\n'])) = some d)
    (hsafe : SafeEntries d) (hnodup : (keys d).Nodup)
    (hnt : ∀ t ∈ nt, plainWord t = true) :
    (∀ k, k ≠ tagsKey →
      dictGet? (parse_frontmatter (update_frontmatter_tags (mkDoc fmText body) nt)) k =
        dictGet? (parse_frontmatter (mkDoc fmText body)) k) ∧
    dictGet? (parse_frontmatter (update_frontmatter_tags (mkDoc fmText body) nt)) tagsKey =
      some (.vlist (sortedSet nt)) := by
  have hm := wellformed_roundtrip fmText body d nt hfree hload hsafe hnodup hnt
  constructor
  · intro k hk
    rw [hm.2.2, hm.1, dictGet?_dictInsert_ne d _ _ k hk]
  · rw [hm.2.2, dictGet?_dictInsert_self]

/-- C9 witness: the `author` key survives a tag rewrite verbatim on a
concrete document. -/
theorem serialize_preserves_non_tag_keys_witness :
    dictGet? (parse_frontmatter (update_frontmatter_tags
        (mkDoc (lc "author: me\ntags: x") (lc "body")) [lc "z"])) (lc "author") =
      dictGet? (parse_frontmatter (mkDoc (lc "author: me\ntags: x") (lc "body")))
        (lc "author") :=
  (serialize_preserves_non_tag_keys (lc "author: me\ntags: x") (lc "body")
    [(lc "author", .vstr (lc "me")), (tagsKey, .vstr (lc "x"))] [lc "z"]
    (by decide) (by decide) (by unfold SafeEntries; decide) (by decide)
    (by decide)).1 (lc "author") (by decide)
